import Mathlib

/-!
Verification of the sound-normalization / tallying core and the locus-identifier
scheme of the `qs_sounds` repository (`src/init.py`), via a shallow embedding.

Modelling conventions:
* Python strings are Lean `String`s; most work happens on their `List Char` data.
* Python dicts are insertion-ordered association lists (`List (String × α)`);
  `dictSet` updates in place when the key is present (keeping its position) and
  appends otherwise, and `dictGetD` returns the first binding, exactly as a
  Python dict with unique keys behaves.
* `unicodedata.normalize("NFKD", word)` is an external Unicode library call; the
  embedded pipeline takes the already-decomposed text as its input.  Claims
  quantified over all input words are formalised as quantifications over all
  decomposed strings, which subsumes the image of NFKD; concrete inputs used
  below (pure Greek lowercase letters, the combining mark U+0314, ASCII) are
  NFKD fixed points.
* `re.sub` with the literal patterns of the replacement table is plain
  leftmost, non-overlapping substring replacement; it is embedded as a
  fuel-based scan (`substAux`) whose fuel (the input length) is always
  sufficient because every step consumes at least one character.
* Python string comparison is code-point lexicographic order, embedded as
  `listLt` / `pyLt` / `pyLe`.
-/

namespace QS

/-- Python's `str.lower`, restricted to the alphabets that can reach this
pipeline (ASCII letters and the basic Greek block); all other characters are
returned unchanged. -/
def pyLower (c : Char) : Char :=
  if 'A' ≤ c ∧ c ≤ 'Z' then Char.ofNat (c.toNat + 32)
  else if ('Α' ≤ c ∧ c ≤ 'Ρ') ∨ ('Σ' ≤ c ∧ c ≤ 'Ω') then Char.ofNat (c.toNat + 32)
  else c

/-- The whitespace characters removed by Python's `str.strip`. -/
def isPySpace (c : Char) : Bool :=
  (9 ≤ c.toNat ∧ c.toNat ≤ 13) || (28 ≤ c.toNat ∧ c.toNat ≤ 31) || c.toNat == 32 ||
  c.toNat == 133 || c.toNat == 160 || c.toNat == 0x1680 ||
  (0x2000 ≤ c.toNat ∧ c.toNat ≤ 0x200a) || c.toNat == 0x2028 || c.toNat == 0x2029 ||
  c.toNat == 0x202f || c.toNat == 0x205f || c.toNat == 0x3000

/-- Python's `str.strip`: drop whitespace from both ends. -/
def pyStrip (l : List Char) : List Char :=
  ((l.dropWhile isPySpace).reverse.dropWhile isPySpace).reverse

/-- The character class of `re.sub("[^α-ω ]", "", …)`: a character survives the
diacritic/noise filter iff it is a lowercase Greek letter (U+03B1 – U+03C9) or a
space. -/
def keepSound (c : Char) : Bool :=
  ('α' ≤ c && c ≤ 'ω') || c == ' '

/-- `one_time`: the irreversible single-letter mergers, in source order. -/
def one_time : List (String × String) :=
  [("ς", "σ"), ("θ", "τ"), ("χ", "κ"), ("φ", "π")]

/-- `reversible`: the reversible digraph swaps, in source order.  The surrogate
codes are, respectively: Latin `O` (U+004F), Greek capital iota (U+0399),
Latin `e`, Latin `Y`, Greek capital alpha (U+0391), Latin `u`, Latin `U`. -/
def reversible : List (String × String) :=
  [("οι", "O"), ("αι", "Ι"), ("ει", "e"), ("υι", "Y"),
   ("αυ", "Α"), ("ευ", "u"), ("ου", "U")]

/-- Python `dict` assignment `m[k] = v` on an insertion-ordered association
list: update in place if the key is present, else append. -/
def dictSet {α : Type} (m : List (String × α)) (k : String) (v : α) :
    List (String × α) :=
  if m.any (fun p => p.1 == k) then
    m.map (fun p => if p.1 == k then (k, v) else p)
  else
    m ++ [(k, v)]

/-- Python `m.get(k, d)`: the first binding of `k`, or the default. -/
def dictGetD {α : Type} (m : List (String × α)) (k : String) (d : α) : α :=
  match m.find? (fun p => p.1 == k) with
  | some p => p.2
  | none => d

/-- `reverse_replacements`: the surrogate-to-digraph table, built by inserting
`(v, k)` for each `(k, v)` of `reversible`. -/
def reverse_replacements : List (String × String) :=
  reversible.foldl (fun m p => dictSet m p.2 p.1) []

/-- `replacements`: the combined table, built by inserting all `reversible`
items and then all `one_time` items into one dict. -/
def replacements : List (String × String) :=
  one_time.foldl (fun m p => dictSet m p.1 p.2)
    (reversible.foldl (fun m p => dictSet m p.1 p.2) [])

/-- Is `pat` a prefix of the list? -/
def isPre : List Char → List Char → Bool
  | [], _ => true
  | _ :: _, [] => false
  | p :: ps, c :: cs => p == c && isPre ps cs

/-- One step of leftmost non-overlapping substring replacement (`re.sub` with a
literal pattern): scan left to right; on a match emit the replacement and
resume after the matched text.  `fuel` bounds the recursion; every step
consumes at least one input character (the patterns in play are nonempty), so
fuel equal to the input length is always enough. -/
def substAux (pat rep : List Char) : Nat → List Char → List Char
  | _, [] => []
  | 0, l => l
  | fuel + 1, c :: cs =>
    if isPre pat (c :: cs) then
      rep ++ substAux pat rep fuel (cs.drop (pat.length - 1))
    else
      c :: substAux pat rep fuel cs

/-- `re.sub(pat, rep, l)` for a literal pattern. -/
def subst1 (pat rep : List Char) (l : List Char) : List Char :=
  substAux pat rep l.length l

/-- The substitution loop `for k, v in replacements.items(): re.sub(k, v, …)`:
apply the table entries in iteration order. -/
def applyTable (table : List (String × String)) (l : List Char) : List Char :=
  table.foldl (fun acc p => subst1 p.1.data p.2.data acc) l

/-- The rough-breathing combining mark U+0314. -/
def breathMark : Char := Char.ofNat 0x314

/-- The Sound Normalizer: everything `sounds_per_word` does to the (decomposed)
word before tallying — lowercase and strip, extract the rough-breathing mark
U+0314 as a literal `h`, drop every character outside `[α-ω ]`, strip again,
and run the combined replacement table.  The result is the canonical sound
string (as a character list). -/
def canonical (w : String) : List Char :=
  let t1 := pyStrip (w.data.map pyLower)
  let breathing := if breathMark ∈ t1 then ['h'] else []
  let t2 := breathing ++ pyStrip (t1.filter keepSound)
  applyTable replacements t2

/-- `reverse_replacements.get(c, c)` for a single character `c`. -/
def resolve (c : Char) : String :=
  dictGetD reverse_replacements (String.singleton c) (String.singleton c)

/-- `count[key] = count.get(key, 0) + 1`. -/
def dictIncr (m : List (String × Nat)) (k : String) : List (String × Nat) :=
  dictSet m k (dictGetD m k 0 + 1)

/-- The per-character counting loop of `sounds_per_word`. -/
def tallyLoop (l : List Char) (count : List (String × Nat)) :
    List (String × Nat) :=
  l.foldl (fun m c => dictIncr m (resolve c)) count

/-- The Sound Tally: empty canonical string gives the empty dict; otherwise
record the onset key `"_" + resolved first letter` with count 1, then count
every character under its resolved spelling. -/
def tally (l : List Char) : List (String × Nat) :=
  match l with
  | [] => []
  | c :: _ => tallyLoop l [("_" ++ resolve c, 1)]

/-- A Python value passed to `sounds_per_word`: a string, or anything else
(e.g. a pandas NaN), which the function coerces to the empty word. -/
inductive PyInput where
  | str (s : String)
  | nonstr
deriving DecidableEq

/-- The word a `PyInput` stands for after the `isinstance` coercion. -/
def wordOf : PyInput → String
  | .str s => s
  | .nonstr => ""

/-- `sounds_per_word`: the full per-word pipeline, from (decomposed) input to
the sound profile. -/
def sounds_per_word (input : PyInput) : List (String × Nat) :=
  tally (canonical (wordOf input))

/-- Does this profile key mark a word onset (alliteration key), i.e. does it
begin with the `_` prefix? -/
def isOnsetKey (k : String) : Bool :=
  k.data.head? == some '_'

/-!  ## Locus identifiers (`create_id`)  -/

/-- The digit value `c - '0'` as a character; used to build Python's decimal
rendering of a number. -/
def dig (n : Nat) : Char := Char.ofNat (48 + n % 10)

/-- Decimal digits of `n`, most significant first, with fuel. -/
def decimalAux : Nat → Nat → List Char
  | 0, _ => []
  | fuel + 1, n => if n < 10 then [dig n] else decimalAux fuel (n / 10) ++ [dig (n % 10)]

/-- Python's `str(n)` for a natural number. -/
def decimal (n : Nat) : List Char := decimalAux (n + 1) n

/-- Python's `f"{n:0wd}"` for a natural number: zero-pad the decimal rendering
to width `w`. -/
def padNat (w : Nat) (n : Nat) : List Char :=
  List.replicate (w - (decimal n).length) '0' ++ decimal n

/-- Python's `f"{i:0wd}"` for an integer: the sign counts toward the width. -/
def pyFmtInt (w : Nat) (i : Int) : List Char :=
  if i < 0 then '-' :: padNat (w - 1) i.natAbs else padNat w i.toNat

/-- Is the character an ASCII decimal digit, `'0'` (48) through `'9'` (57)
(the `\d` of the pattern)? -/
def isDig (c : Char) : Bool := 48 ≤ c.toNat && c.toNat ≤ 57

/-- Body of a Python integer literal after the optional sign: digits with
single underscores allowed strictly between digits. -/
def intBody : List Char → Bool
  | [] => true
  | c :: rest =>
    if isDig c then intBody rest
    else if c = '_' then isDig (rest.headD '_') && intBody rest
    else false

/-- The numeric value of a digit/underscore run (underscores skipped). -/
def digitsVal (l : List Char) : Nat :=
  l.foldl (fun a c => if c = '_' then a else 10 * a + (c.toNat - 48)) 0

/-- Python's `int(s)` on a string: strip whitespace, optional sign, then a
nonempty digit run (underscores allowed between digits); `none` models the
`ValueError` raised on anything else. -/
def pyInt (s : String) : Option Int :=
  match pyStrip s.data with
  | [] => none
  | c :: rest =>
    if c = '+' then
      (if rest ≠ [] ∧ intBody rest ∧ isDig (rest.headD '0') then
        some (digitsVal rest : Int) else none)
    else if c = '-' then
      (if rest ≠ [] ∧ intBody rest ∧ isDig (rest.headD '0') then
        some (-(digitsVal rest : Int)) else none)
    else
      (if intBody (c :: rest) ∧ isDig c then
        some (digitsVal (c :: rest) : Int) else none)

/-- The `(numeric, letter)` split that `re.match(r"(\d+)([a-z])", line)`
produces.  The match succeeds exactly when the leading digit run is nonempty
and is immediately followed by a lowercase ASCII letter (greedy `\d+`
backtracks only onto digits, which can never satisfy `[a-z]`); in that case
`numeric` is the digit run and `letter` that single letter, and everything
after the letter is ignored.  Otherwise `numeric` is the whole line and
`letter` is empty. -/
def lineSplit (l : List Char) : List Char × List Char :=
  match l.drop (l.takeWhile isDig).length with
  | c :: _ =>
    if l.takeWhile isDig ≠ [] ∧ 'a' ≤ c ∧ c ≤ 'z' then (l.takeWhile isDig, [c])
    else (l, [])
  | [] => (l, [])

/-- `create_id(book, line)`: format the key
`{book:02d}_{int(numeric):03d}{letter}`; `int(numeric)` failing (a
`ValueError`) is modelled as `none`. -/
def create_id (book : Nat) (line : String) : Option String :=
  match pyInt (String.mk (lineSplit line.data).1) with
  | none => none
  | some n =>
    some (String.mk (padNat 2 book ++ '_' :: pyFmtInt 3 n ++ (lineSplit line.data).2))

/-!  ## Python string comparison  -/

/-- Python's `<` on strings: code-point lexicographic order. -/
def listLt : List Char → List Char → Bool
  | [], [] => false
  | [], _ :: _ => true
  | _ :: _, [] => false
  | c :: cs, d :: ds => c < d || (c = d && listLt cs ds)

/-- Python's `s < t` on strings. -/
def pyLt (s t : String) : Bool := listLt s.data t.data

/-- Python's `s <= t` on strings (`pandas.Series.between` uses this on both
ends). -/
def pyLe (s t : String) : Bool := !listLt t.data s.data

/-!  ## Range labelling (the `__main__` speech-labelling loop)  -/

/-- One pass of `lines.loc[lines["id"].between(id_first, id_last), "label"] = cat`:
every row whose id lies between the endpoints (inclusive, string comparison)
gets the range's category. -/
def applyRange (rows : List (String × String)) (fi la cat : String) :
    List (String × String) :=
  rows.map (fun p => if pyLe fi p.1 && pyLe p.1 la then (p.1, cat) else p)

/-- The labelling phase: every line starts as `"narration"`, then each range is
applied in order, later ranges overwriting earlier labels. -/
def label_lines (loci : List String) (ranges : List (String × String × String)) :
    List String :=
  (ranges.foldl (fun rows r => applyRange rows r.1 r.2.1 r.2.2)
    (loci.map (fun k => (k, "narration")))).map Prod.snd

/-- The label a single locus ends up with: the category of the last range
containing it, else `"narration"`. -/
def labelOf (ranges : List (String × String × String)) (k : String) : String :=
  ranges.foldl (fun lab r => if pyLe r.1 k && pyLe k r.2.1 then r.2.2 else lab)
    "narration"


/-!  ## Character order bridges  -/

theorem charLe_iff {a b : Char} : a ≤ b ↔ a.toNat ≤ b.toNat :=
  ⟨fun h => h, fun h => h⟩

theorem charLt_iff {a b : Char} : a < b ↔ a.toNat < b.toNat :=
  ⟨fun h => h, fun h => h⟩

theorem charEq_iff {a b : Char} : a = b ↔ a.toNat = b.toNat :=
  Char.ext_iff.trans ⟨fun h => congrArg UInt32.toNat h, fun h => UInt32.ext h⟩

/-!  ## Lexicographic order (`listLt`) lemmas  -/

theorem listLt_irrefl : ∀ l : List Char, listLt l l = false
  | [] => rfl
  | c :: cs => by simp [listLt, listLt_irrefl cs]

theorem listLt_trans : ∀ {a b c : List Char},
    listLt a b = true → listLt b c = true → listLt a c = true
  | [], [], _, h, _ => by simp [listLt] at h
  | [], _ :: _, [], _, h => by simp [listLt] at h
  | [], _ :: _, _ :: _, _, _ => rfl
  | _ :: _, [], _, h, _ => by simp [listLt] at h
  | _ :: _, _ :: _, [], _, h => by simp [listLt] at h
  | a :: as, b :: bs, c :: cs, h1, h2 => by
    simp only [listLt, Bool.or_eq_true, Bool.and_eq_true, decide_eq_true_eq] at h1 h2 ⊢
    rcases h1 with h1 | ⟨rfl, h1⟩
    · rcases h2 with h2 | ⟨rfl, _⟩
      · exact Or.inl (lt_trans h1 h2)
      · exact Or.inl h1
    · rcases h2 with h2 | ⟨rfl, h2⟩
      · exact Or.inl h2
      · exact Or.inr ⟨rfl, listLt_trans h1 h2⟩

theorem listLt_asymm : ∀ {a b : List Char},
    listLt a b = true → listLt b a = false
  | [], [], h => by simp [listLt] at h
  | [], _ :: _, _ => rfl
  | _ :: _, [], h => by simp [listLt] at h
  | a :: as, b :: bs, h => by
    simp only [listLt, Bool.or_eq_true, Bool.and_eq_true, decide_eq_true_eq] at h
    simp only [listLt, Bool.or_eq_false_iff, Bool.and_eq_false_iff,
      decide_eq_false_iff_not]
    rcases h with h | ⟨rfl, h⟩
    · exact ⟨not_lt_of_lt h, Or.inl fun hb => absurd hb.symm (ne_of_lt h)⟩
    · exact ⟨lt_irrefl a, Or.inr (listLt_asymm h)⟩

theorem listLt_connex : ∀ {a b : List Char},
    listLt a b = false → listLt b a = false → a = b
  | [], [], _, _ => rfl
  | [], _ :: _, h, _ => by simp [listLt] at h
  | _ :: _, [], _, h => by simp [listLt] at h
  | a :: as, b :: bs, h1, h2 => by
    simp only [listLt, Bool.or_eq_false_iff, Bool.and_eq_false_iff,
      decide_eq_false_iff_not] at h1 h2
    have hab : a = b := le_antisymm (not_lt.mp h2.1) (not_lt.mp h1.1)
    subst hab
    rcases h1.2 with h | h
    · exact absurd rfl h
    · rcases h2.2 with h' | h'
      · exact absurd rfl h'
      · rw [listLt_connex h h']

theorem listLt_append_same : ∀ (xs as bs : List Char),
    listLt (xs ++ as) (xs ++ bs) = listLt as bs
  | [], _, _ => rfl
  | x :: xs, as, bs => by
    simp [listLt, listLt_append_same xs as bs]

theorem listLt_append_of_length_eq : ∀ (as bs cs ds : List Char),
    as.length = bs.length → listLt as bs = true →
    listLt (as ++ cs) (bs ++ ds) = true
  | [], [], _, _, _, h => by simp [listLt] at h
  | [], _ :: _, _, _, hl, _ => by simp at hl
  | _ :: _, [], _, _, hl, _ => by simp at hl
  | a :: as, b :: bs, cs, ds, hl, h => by
    simp only [listLt, Bool.or_eq_true, Bool.and_eq_true, decide_eq_true_eq] at h ⊢
    rcases h with h | ⟨rfl, h⟩
    · exact Or.inl h
    · exact Or.inr ⟨rfl, listLt_append_of_length_eq as bs cs ds (by simpa using hl) h⟩

/-!  ## Decimal rendering lemmas  -/

theorem dig_eq_mod (n : Nat) : dig n = dig (n % 10) := by
  unfold dig; congr 1; omega

theorem isDig_dig (n : Nat) : isDig (dig n) = true := by
  rw [dig_eq_mod]
  have h : n % 10 < 10 := Nat.mod_lt _ (by omega)
  exact (by decide : ∀ m : Fin 10, isDig (dig m.val) = true) ⟨n % 10, h⟩

theorem decimalAux_small {f n : Nat} (h : n < 10) : decimalAux (f + 1) n = [dig n] := by
  simp [decimalAux, h]

theorem decimal_lt10 {n : Nat} (h : n < 10) : decimal n = [dig n] :=
  decimalAux_small h

theorem decimal_lt100 {n : Nat} (h1 : 10 ≤ n) (h2 : n < 100) :
    decimal n = [dig (n / 10), dig (n % 10)] := by
  obtain ⟨m, rfl⟩ : ∃ m, n = m + 1 := ⟨n - 1, by omega⟩
  show decimalAux (m + 1 + 1) (m + 1) = _
  rw [decimalAux, if_neg (by omega), decimalAux_small (by omega)]
  rfl

theorem decimal_lt1000 {n : Nat} (h1 : 100 ≤ n) (h2 : n < 1000) :
    decimal n = [dig (n / 100), dig (n / 10 % 10), dig (n % 10)] := by
  obtain ⟨m, rfl⟩ : ∃ m, n = m + 1 := ⟨n - 1, by omega⟩
  obtain ⟨j, hj⟩ : ∃ j, m = j + 1 := ⟨m - 1, by omega⟩
  show decimalAux (m + 1 + 1) (m + 1) = _
  rw [decimalAux, if_neg (by omega)]
  rw [hj]
  rw [decimalAux, if_neg (by omega), decimalAux_small (by omega)]
  have : (j + 1 + 1) / 10 / 10 = (j + 1 + 1) / 100 := by omega
  simp [this]

theorem decimal_ne_nil (n : Nat) : decimal n ≠ [] := by
  by_cases h : n < 10
  · rw [decimal_lt10 h]; simp
  · show decimalAux (n + 1) n ≠ []
    rw [decimalAux, if_neg h]; simp

theorem mem_decimalAux_isDig : ∀ (f n : Nat) (c : Char), c ∈ decimalAux f n → isDig c = true := by
  intro f
  induction f with
  | zero => intro n c h; simp [decimalAux] at h
  | succ f ih =>
    intro n c h
    rw [decimalAux] at h
    by_cases hn : n < 10
    · rw [if_pos hn] at h
      simp at h
      rw [h]; exact isDig_dig n
    · rw [if_neg hn] at h
      rcases List.mem_append.mp h with h | h
      · exact ih _ c h
      · simp at h; rw [h]; exact isDig_dig (n % 10)

theorem mem_decimal_isDig {n : Nat} {c : Char} (h : c ∈ decimal n) : isDig c = true :=
  mem_decimalAux_isDig _ _ _ h

theorem padNat2_form {n : Nat} (h : n < 100) :
    padNat 2 n = [dig (n / 10), dig (n % 10)] := by
  by_cases h10 : n < 10
  · rw [padNat, decimal_lt10 h10]
    have h1 : n / 10 = 0 := by omega
    have h2 : n % 10 = n := by omega
    rw [h1, h2]
    show ['0', dig n] = [dig 0, dig n]
    norm_num [dig]
  · rw [padNat, decimal_lt100 (by omega) h]
    rfl

theorem padNat3_form {n : Nat} (h : n < 1000) :
    padNat 3 n = [dig (n / 100), dig (n / 10 % 10), dig (n % 10)] := by
  by_cases h10 : n < 10
  · rw [padNat, decimal_lt10 h10]
    have h1 : n / 100 = 0 := by omega
    have h2 : n / 10 % 10 = 0 := by omega
    have h3 : n % 10 = n := by omega
    rw [h1, h2, h3]
    show ['0', '0', dig n] = [dig 0, dig 0, dig n]
    norm_num [dig]
  · by_cases h100 : n < 100
    · rw [padNat, decimal_lt100 (by omega) h100]
      have h1 : n / 100 = 0 := by omega
      have h2 : n / 10 % 10 = n / 10 := by omega
      rw [h1, h2]
      show ['0', dig (n / 10), dig (n % 10)] = [dig 0, dig (n / 10), dig (n % 10)]
      norm_num [dig]
    · rw [padNat, decimal_lt1000 (by omega) h]
      rfl

theorem dig_mono {a b : Nat} (hab : a < b) (hb : b < 10) : dig a < dig b := by
  exact (by decide : ∀ x y : Fin 10, x.val < y.val → dig x.val < dig y.val)
    ⟨a, by omega⟩ ⟨b, by omega⟩ hab

theorem padNat2_mono {a b : Nat} (hab : a < b) (hb : b < 100) :
    listLt (padNat 2 a) (padNat 2 b) = true := by
  rw [padNat2_form (by omega), padNat2_form hb]
  rcases Nat.lt_or_ge (a / 10) (b / 10) with h | h
  · simp [listLt, dig_mono h (by omega)]
  · have he : a / 10 = b / 10 := by omega
    have hm : a % 10 < b % 10 := by omega
    rw [he]
    simp [listLt, dig_mono hm (by omega)]

theorem padNat3_mono {a b : Nat} (hab : a < b) (hb : b < 1000) :
    listLt (padNat 3 a) (padNat 3 b) = true := by
  rw [padNat3_form (by omega), padNat3_form hb]
  rcases Nat.lt_or_ge (a / 100) (b / 100) with h | h
  · simp [listLt, dig_mono h (by omega)]
  · have he : a / 100 = b / 100 := by omega
    rw [he]
    rcases Nat.lt_or_ge (a / 10 % 10) (b / 10 % 10) with h2 | h2
    · simp [listLt, dig_mono h2 (by omega)]
    · have he2 : a / 10 % 10 = b / 10 % 10 := by omega
      have hm : a % 10 < b % 10 := by omega
      rw [he2]
      simp [listLt, dig_mono hm (by omega)]

theorem padNat2_length {n : Nat} (h : n < 100) : (padNat 2 n).length = 2 := by
  rw [padNat2_form h]; rfl

theorem padNat3_length {n : Nat} (h : n < 1000) : (padNat 3 n).length = 3 := by
  rw [padNat3_form h]; rfl

/-!  ## String stripping and integer parsing lemmas  -/

theorem dropWhile_eq_self_of {l : List Char} {p : Char → Bool}
    (h : ∀ c ∈ l, p c = false) : l.dropWhile p = l := by
  cases l with
  | nil => rfl
  | cons x xs => simp [List.dropWhile_cons, h x (by simp)]

theorem pyStrip_eq_self {l : List Char} (h : ∀ c ∈ l, isPySpace c = false) :
    pyStrip l = l := by
  unfold pyStrip
  rw [dropWhile_eq_self_of h,
    dropWhile_eq_self_of (fun c hc => h c (List.mem_reverse.mp hc)),
    List.reverse_reverse]

theorem isPySpace_of_isDig {c : Char} (h : isDig c = true) : isPySpace c = false := by
  simp only [isDig, Bool.and_eq_true, decide_eq_true_eq] at h
  simp only [isPySpace, Bool.or_eq_false_iff, decide_eq_false_iff_not,
    beq_eq_false_iff_ne, ne_eq, not_and, not_le]
  omega

theorem takeWhile_append_all {xs ys : List Char} {p : Char → Bool}
    (h : ∀ c ∈ xs, p c = true) : (xs ++ ys).takeWhile p = xs ++ ys.takeWhile p := by
  induction xs with
  | nil => simp
  | cons x xs ih =>
    simp [List.takeWhile_cons, h x (by simp)]
    exact ih (fun c hc => h c (by simp [hc]))

theorem takeWhile_all {l : List Char} {p : Char → Bool}
    (h : ∀ c ∈ l, p c = true) : l.takeWhile p = l := by
  induction l with
  | nil => rfl
  | cons x xs ih =>
    simp [List.takeWhile_cons, h x (by simp)]
    exact fun c hc => h c (by simp [hc])

theorem intBody_all : ∀ {l : List Char}, (∀ c ∈ l, isDig c = true) → intBody l = true
  | [], _ => rfl
  | c :: rest, h => by
    have hc : isDig c = true := h c (by simp)
    simp only [intBody, hc, if_true]
    exact intBody_all (fun d hd => h d (by simp [hd]))

theorem pyInt_digits {ds : List Char} (hne : ds ≠ []) (h : ∀ c ∈ ds, isDig c = true) :
    pyInt (String.mk ds) = some ((digitsVal ds : Int)) := by
  unfold pyInt
  rw [show (String.mk ds).data = ds from rfl, pyStrip_eq_self
    (fun c hc => isPySpace_of_isDig (h c hc))]
  cases ds with
  | nil => exact absurd rfl hne
  | cons c rest =>
    have hc := h c (by simp)
    have hplus : c ≠ '+' := by intro e; rw [e] at hc; exact absurd hc (by decide)
    have hminus : c ≠ '-' := by intro e; rw [e] at hc; exact absurd hc (by decide)
    simp only [if_neg hplus, if_neg hminus, if_pos (And.intro (intBody_all h) hc)]

theorem digitsValFin1 : ∀ a : Fin 10, digitsVal [dig a.val] = a.val := by decide

theorem digitsValFin2 : ∀ a b : Fin 10,
    digitsVal [dig a.val, dig b.val] = 10 * a.val + b.val := by decide

theorem digitsValFin3 : ∀ a b c : Fin 10,
    digitsVal [dig a.val, dig b.val, dig c.val]
      = 100 * a.val + 10 * b.val + c.val := by decide

theorem digitsVal_decimal {n : Nat} (h : n < 1000) : digitsVal (decimal n) = n := by
  by_cases h10 : n < 10
  · rw [decimal_lt10 h10]
    exact digitsValFin1 ⟨n, h10⟩
  · by_cases h100 : n < 100
    · rw [decimal_lt100 (by omega) h100]
      have e : digitsVal [dig (n / 10), dig (n % 10)] = 10 * (n / 10) + n % 10 :=
        digitsValFin2 ⟨n / 10, by omega⟩ ⟨n % 10, by omega⟩
      rw [e]; omega
    · rw [decimal_lt1000 (by omega) h]
      have e : digitsVal [dig (n / 100), dig (n / 10 % 10), dig (n % 10)]
          = 100 * (n / 100) + 10 * (n / 10 % 10) + n % 10 :=
        digitsValFin3 ⟨n / 100, by omega⟩ ⟨n / 10 % 10, by omega⟩ ⟨n % 10, by omega⟩
      rw [e]; omega

theorem pyInt_decimal {n : Nat} (h : n < 1000) :
    pyInt (String.mk (decimal n)) = some (n : Int) := by
  rw [pyInt_digits (decimal_ne_nil n) (fun c hc => mem_decimal_isDig hc),
    digitsVal_decimal h]

/-!  ## Locus keys, suffixes, chronological order  -/

/-- The characters a line suffix contributes: none, or one letter. -/
def sfxChars : Option Char → List Char
  | none => []
  | some c => [c]

/-- A well-formed suffix: absent, or a single lowercase ASCII letter. -/
def validSfx : Option Char → Prop
  | none => True
  | some c => 'a' ≤ c ∧ c ≤ 'z'

/-- The line string `"{line}{suffix}"`: a bare integer optionally followed by
one lowercase letter. -/
def lineStr (n : Nat) (s : Option Char) : String :=
  String.mk (decimal n ++ sfxChars s)

/-- The fixed-width key `{book:02d}_{line:03d}{suffix}` the spec promises. -/
def keyStr (b n : Nat) (s : Option Char) : String :=
  String.mk (padNat 2 b ++ ['_'] ++ padNat 3 n ++ sfxChars s)

/-- Suffix order: a bare numeral sorts before any suffixed line, suffixes sort
alphabetically. -/
def sfxLt : Option Char → Option Char → Prop
  | none, some _ => True
  | some c, some d => c < d
  | _, _ => False

/-- Chronological order of loci: by book, then line, then suffix. -/
def chronoLt (b1 l1 : Nat) (s1 : Option Char) (b2 l2 : Nat) (s2 : Option Char) : Prop :=
  b1 < b2 ∨ (b1 = b2 ∧ (l1 < l2 ∨ (l1 = l2 ∧ sfxLt s1 s2)))

theorem isDig_lower_false {c : Char} (h : 'a' ≤ c) : isDig c = false := by
  have hn : 97 ≤ c.toNat := charLe_iff.mp h
  simp only [isDig, Bool.and_eq_false_iff, decide_eq_false_iff_not, not_le]
  omega

theorem lineSplit_valid {n : Nat} {s : Option Char} (hs : validSfx s) :
    lineSplit (decimal n ++ sfxChars s) = (decimal n, sfxChars s) := by
  cases s with
  | none =>
    show lineSplit (decimal n ++ []) = (decimal n, [])
    rw [List.append_nil]
    unfold lineSplit
    rw [takeWhile_all (fun c hc => mem_decimal_isDig hc), List.drop_length]
  | some c =>
    have hd : isDig c = false := isDig_lower_false hs.1
    show lineSplit (decimal n ++ [c]) = (decimal n, [c])
    unfold lineSplit
    rw [takeWhile_append_all (fun d hd' => mem_decimal_isDig hd')]
    rw [show ([c] : List Char).takeWhile isDig = [] by simp [List.takeWhile_cons, hd]]
    rw [List.append_nil, List.drop_left]
    show (if decimal n ≠ [] ∧ 'a' ≤ c ∧ c ≤ 'z' then (decimal n, [c])
      else (decimal n ++ [c], [])) = (decimal n, [c])
    rw [if_pos ⟨decimal_ne_nil n, hs⟩]

theorem create_id_lineStr {b n : Nat} {s : Option Char} (hn : n < 1000)
    (hs : validSfx s) : create_id b (lineStr n s) = some (keyStr b n s) := by
  unfold create_id
  rw [show (lineStr n s).data = decimal n ++ sfxChars s from rfl, lineSplit_valid hs,
    pyInt_decimal hn]
  show some _ = some _
  unfold keyStr pyFmtInt
  rw [if_neg (by omega), Int.toNat_natCast]
  simp [List.append_assoc]

theorem sfx_trichotomy (s1 s2 : Option Char) : sfxLt s1 s2 ∨ s1 = s2 ∨ sfxLt s2 s1 := by
  cases s1 with
  | none =>
    cases s2 with
    | none => exact Or.inr (Or.inl rfl)
    | some d => exact Or.inl trivial
  | some c =>
    cases s2 with
    | none => exact Or.inr (Or.inr trivial)
    | some d =>
      rcases lt_trichotomy c d with h | rfl | h
      · exact Or.inl h
      · exact Or.inr (Or.inl rfl)
      · exact Or.inr (Or.inr h)

theorem chrono_trichotomy (b1 l1 : Nat) (s1 : Option Char) (b2 l2 : Nat) (s2 : Option Char) :
    chronoLt b1 l1 s1 b2 l2 s2 ∨ (b1 = b2 ∧ l1 = l2 ∧ s1 = s2) ∨
      chronoLt b2 l2 s2 b1 l1 s1 := by
  rcases Nat.lt_trichotomy b1 b2 with h | rfl | h
  · exact Or.inl (Or.inl h)
  · rcases Nat.lt_trichotomy l1 l2 with h | rfl | h
    · exact Or.inl (Or.inr ⟨rfl, Or.inl h⟩)
    · rcases sfx_trichotomy s1 s2 with h | rfl | h
      · exact Or.inl (Or.inr ⟨rfl, Or.inr ⟨rfl, h⟩⟩)
      · exact Or.inr (Or.inl ⟨rfl, rfl, rfl⟩)
      · exact Or.inr (Or.inr (Or.inr ⟨rfl, Or.inr ⟨rfl, h⟩⟩))
    · exact Or.inr (Or.inr (Or.inr ⟨rfl, Or.inl h⟩))
  · exact Or.inr (Or.inr (Or.inl h))

theorem listLt_cons_cons_same (x : Char) (as bs : List Char) :
    listLt (x :: as) (x :: bs) = listLt as bs := by
  simpa using listLt_append_same [x] as bs

theorem keyStr_lt_of_chronoLt {b1 l1 b2 l2 : Nat} {s1 s2 : Option Char}
    (hb1 : b1 < 100) (hl1 : l1 < 1000) (hb2 : b2 < 100) (hl2 : l2 < 1000)
    (h : chronoLt b1 l1 s1 b2 l2 s2) :
    pyLt (keyStr b1 l1 s1) (keyStr b2 l2 s2) = true := by
  show listLt (padNat 2 b1 ++ ['_'] ++ padNat 3 l1 ++ sfxChars s1)
    (padNat 2 b2 ++ ['_'] ++ padNat 3 l2 ++ sfxChars s2) = true
  rw [List.append_assoc (padNat 2 b1), List.append_assoc (padNat 2 b1),
    List.append_assoc (padNat 2 b2), List.append_assoc (padNat 2 b2)]
  rcases h with h | ⟨rfl, h⟩
  · exact listLt_append_of_length_eq (padNat 2 b1) (padNat 2 b2) _ _
      (by rw [padNat2_length hb1, padNat2_length hb2]) (padNat2_mono h hb2)
  · rw [listLt_append_same (padNat 2 b1), List.append_assoc ['_'],
      List.append_assoc ['_'], listLt_append_same ['_']]
    rcases h with h | ⟨rfl, h⟩
    · exact listLt_append_of_length_eq (padNat 3 l1) (padNat 3 l2) _ _
        (by rw [padNat3_length hl1, padNat3_length hl2]) (padNat3_mono h hl2)
    · rw [listLt_append_same (padNat 3 l1)]
      cases s1 with
      | none =>
        cases s2 with
        | none => exact absurd h (by simp [sfxLt])
        | some d => rfl
      | some c =>
        cases s2 with
        | none => exact absurd h (by simp [sfxLt])
        | some d => simp [sfxChars, listLt, show c < d from h]

/-!  ## Claim theorems for the locus identifier  -/

/-- **C6.** For every book number in 0–99 and every line string that is a bare
integer in 0–999 optionally followed by one lowercase letter, `create_id`
returns the fixed-width key `{book:02d}_{line:03d}{suffix}`, and plain string
comparison (`pyLt`) of any two such keys agrees with chronological
(book, line, suffix) order; in particular
`create_id 1 "7" = "01_007"`, `create_id 12 "23b" = "12_023b"`, and
`"01_007" < "01_008" < "02_001"`. -/
theorem create_id_fixed_width_sorted (b1 l1 b2 l2 : Nat) (s1 s2 : Option Char)
    (hb1 : b1 < 100) (hl1 : l1 < 1000) (hs1 : validSfx s1)
    (hb2 : b2 < 100) (hl2 : l2 < 1000) (hs2 : validSfx s2) :
    create_id b1 (lineStr l1 s1) = some (keyStr b1 l1 s1) ∧
    (pyLt (keyStr b1 l1 s1) (keyStr b2 l2 s2) = true ↔
      chronoLt b1 l1 s1 b2 l2 s2) := by
  refine ⟨create_id_lineStr hl1 hs1, ?_,
    fun h => keyStr_lt_of_chronoLt hb1 hl1 hb2 hl2 h⟩
  intro hlt
  rcases chrono_trichotomy b1 l1 s1 b2 l2 s2 with h | ⟨rfl, rfl, rfl⟩ | h
  · exact h
  · have hfalse : pyLt (keyStr b1 l1 s1) (keyStr b1 l1 s1) = false :=
      listLt_irrefl (keyStr b1 l1 s1).data
    rw [hlt] at hfalse
    exact absurd hfalse (by simp)
  · have h2 := keyStr_lt_of_chronoLt hb2 hl2 hb1 hl1 h
    have hfalse : pyLt (keyStr b1 l1 s1) (keyStr b2 l2 s2) = false :=
      listLt_asymm h2
    rw [hlt] at hfalse
    exact absurd hfalse (by simp)

/-- Witness for C6: the spec's own concrete examples. -/
theorem create_id_fixed_width_sorted_witness :
    create_id 1 "7" = some "01_007" ∧ create_id 12 "23b" = some "12_023b" ∧
    pyLt "01_007" "01_008" = true ∧ pyLt "01_008" "02_001" = true := by
  have h1 := create_id_fixed_width_sorted 1 7 1 8 none none (by omega) (by omega)
    trivial (by omega) (by omega) trivial
  have h2 := create_id_fixed_width_sorted 12 23 2 1 (some 'b') none (by omega)
    (by omega) (by exact ⟨by decide, by decide⟩) (by omega) (by omega) trivial
  have h3 := create_id_fixed_width_sorted 1 8 2 1 none none (by omega) (by omega)
    trivial (by omega) (by omega) trivial
  refine ⟨?_, ?_, ?_, ?_⟩
  · have e := h1.1
    rw [show lineStr 7 none = "7" by decide, show keyStr 1 7 none = "01_007" by decide] at e
    exact e
  · have e := h2.1
    rw [show lineStr 23 (some 'b') = "23b" by decide,
      show keyStr 12 23 (some 'b') = "12_023b" by decide] at e
    exact e
  · have e := h1.2.mpr (Or.inr ⟨rfl, Or.inl (by omega)⟩)
    rw [show keyStr 1 7 none = "01_007" by decide,
      show keyStr 1 8 none = "01_008" by decide] at e
    exact e
  · have e := h3.2.mpr (Or.inl (by omega))
    rw [show keyStr 1 8 none = "01_008" by decide,
      show keyStr 2 1 none = "02_001" by decide] at e
    exact e

/-- Does `re.match(r"(\d+)([a-z])", line)` succeed?  Exactly when the leading
digit run is nonempty and the character right after it is a lowercase ASCII
letter. -/
def regexMatches (l : List Char) : Prop :=
  l.takeWhile isDig ≠ [] ∧
    ∃ c rest, l.drop (l.takeWhile isDig).length = c :: rest ∧ 'a' ≤ c ∧ c ≤ 'z'

/-- **C8.** If the line does not match the digits-plus-one-lowercase-letter
pattern and its digit run (here: the whole line, which is what the code hands
to `int`) cannot be parsed as an integer, `create_id` fails with a
`ValueError` (modelled as `none`) instead of returning a key. -/
theorem create_id_malformed_fails (book : Nat) (line : String)
    (h1 : ¬ regexMatches line.data) (h2 : pyInt line = none) :
    create_id book line = none := by
  have hsplit : (lineSplit line.data).1 = line.data := by
    unfold lineSplit
    rcases hrest : line.data.drop (line.data.takeWhile isDig).length with _ | ⟨c, rest⟩
    · rfl
    · have hneg : ¬ (line.data.takeWhile isDig ≠ [] ∧ 'a' ≤ c ∧ c ≤ 'z') := by
        intro hpos
        exact h1 ⟨hpos.1, c, rest, hrest, hpos.2⟩
      show (if line.data.takeWhile isDig ≠ [] ∧ 'a' ≤ c ∧ c ≤ 'z' then
        (line.data.takeWhile isDig, [c]) else (line.data, [])).1 = line.data
      rw [if_neg hneg]
  unfold create_id
  rw [hsplit, show String.mk line.data = line from rfl, h2]

/-- Witness for C8 at the malformed line `"abc"`. -/
theorem create_id_malformed_fails_witness :
    ¬ regexMatches ("abc" : String).data ∧ pyInt "abc" = none ∧
      create_id 1 "abc" = none := by
  have hm : ¬ regexMatches ("abc" : String).data := by
    intro h
    exact h.1 (by decide)
  exact ⟨hm, by decide, create_id_malformed_fails 1 "abc" hm (by decide)⟩

/-- **C10.** If the line is a nonempty digit run, then a lowercase letter, then
anything else, `create_id` silently ignores everything after that first letter:
it returns the same key as for the line truncated after the letter, namely
`{book:02d}_{digits:03d}{letter}`, and raises no error. -/
theorem create_id_ignores_trailing (book : Nat) (ds : List Char) (c : Char)
    (extra : List Char) (hne : ds ≠ []) (hdig : ∀ d ∈ ds, isDig d = true)
    (hc : 'a' ≤ c ∧ c ≤ 'z') :
    create_id book (String.mk (ds ++ c :: extra))
      = create_id book (String.mk (ds ++ [c])) ∧
    create_id book (String.mk (ds ++ c :: extra))
      = some (String.mk (padNat 2 book ++ ['_'] ++ padNat 3 (digitsVal ds) ++ [c])) := by
  have hsplit : ∀ rest : List Char, lineSplit (ds ++ c :: rest) = (ds, [c]) := by
    intro rest
    unfold lineSplit
    rw [takeWhile_append_all hdig,
      show (c :: rest).takeWhile isDig = [] by
        simp [List.takeWhile_cons, isDig_lower_false hc.1],
      List.append_nil, List.drop_left]
    show (if ds ≠ [] ∧ 'a' ≤ c ∧ c ≤ 'z' then (ds, [c]) else (ds ++ c :: rest, []))
      = (ds, [c])
    rw [if_pos ⟨hne, hc⟩]
  have hkey : ∀ rest : List Char, create_id book (String.mk (ds ++ c :: rest))
      = some (String.mk (padNat 2 book ++ ['_'] ++ padNat 3 (digitsVal ds) ++ [c])) := by
    intro rest
    unfold create_id
    rw [show (String.mk (ds ++ c :: rest)).data = ds ++ c :: rest from rfl,
      hsplit rest, pyInt_digits hne hdig]
    show some _ = some _
    unfold pyFmtInt
    rw [if_neg (by omega), Int.toNat_natCast]
    simp [List.append_assoc]
  refine ⟨?_, hkey extra⟩
  rw [hkey extra, show (ds ++ [c] : List Char) = ds ++ c :: [] from rfl, hkey []]

/-- Witness for C10: `create_id 1 "23bc" = create_id 1 "23b" = "01_023b"`. -/
theorem create_id_ignores_trailing_witness :
    create_id 1 "23bc" = create_id 1 "23b" ∧ create_id 1 "23bc" = some "01_023b" := by
  have h := create_id_ignores_trailing 1 ("23" : String).data 'b' ['c']
    (by decide) (by decide) (by decide)
  constructor
  · have e := h.1
    rw [show String.mk (("23" : String).data ++ 'b' :: ['c']) = "23bc" by decide,
      show String.mk (("23" : String).data ++ ['b']) = "23b" by decide] at e
    exact e
  · have e := h.2
    rw [show String.mk (("23" : String).data ++ 'b' :: ['c']) = "23bc" by decide,
      show String.mk (padNat 2 1 ++ ['_'] ++ padNat 3 (digitsVal ("23" : String).data) ++ ['b'])
        = "01_023b" by decide] at e
    exact e

/-!  ## Range labelling lemmas and claim C7  -/

theorem listLt_false_of_le_le {a b k : List Char} (hab : listLt b a = true)
    (h1 : listLt k a = false) (h2 : listLt b k = false) : False := by
  cases hak : listLt a k with
  | true =>
    have ht : listLt b k = true := listLt_trans hab hak
    rw [ht] at h2
    simp at h2
  | false =>
    have he : a = k := listLt_connex hak h1
    subst he
    rw [hab] at h2
    simp at h2

theorem apply_ranges_map (ranges : List (String × String × String)) :
    ∀ rows : List (String × String),
      ranges.foldl (fun rows r => applyRange rows r.1 r.2.1 r.2.2) rows
        = rows.map (fun p => (p.1,
            ranges.foldl
              (fun lab r => if pyLe r.1 p.1 && pyLe p.1 r.2.1 then r.2.2 else lab)
              p.2)) := by
  induction ranges with
  | nil => intro rows; simp
  | cons r rs ih =>
    intro rows
    rw [List.foldl_cons, ih (applyRange rows r.1 r.2.1 r.2.2)]
    unfold applyRange
    rw [List.map_map]
    apply List.map_congr_left
    intro p _
    rw [List.foldl_cons]
    cases hb : (pyLe r.1 p.1 && pyLe p.1 r.2.1) with
    | true => simp [Function.comp, hb]
    | false => simp [Function.comp, hb]

theorem label_lines_eq_map (loci : List String)
    (ranges : List (String × String × String)) :
    label_lines loci ranges = loci.map (labelOf ranges) := by
  unfold label_lines labelOf
  rw [apply_ranges_map, List.map_map, List.map_map]
  apply List.map_congr_left
  intro k _
  rfl

theorem foldl_label_no_match (k : String) :
    ∀ (ranges : List (String × String × String)) (lab : String),
      (∀ r ∈ ranges, (pyLe r.1 k && pyLe k r.2.1) = false) →
      ranges.foldl (fun lab r => if pyLe r.1 k && pyLe k r.2.1 then r.2.2 else lab) lab
        = lab
  | [], _, _ => rfl
  | r :: rs, lab, h => by
    rw [List.foldl_cons, if_neg (by rw [h r (by simp)]; simp)]
    exact foldl_label_no_match k rs lab (fun r' hr' => h r' (by simp [hr']))

theorem labelOf_no_match (k : String) (ranges : List (String × String × String))
    (h : ∀ r ∈ ranges, ¬(pyLe r.1 k = true ∧ pyLe k r.2.1 = true)) :
    labelOf ranges k = "narration" :=
  foldl_label_no_match k ranges "narration" (fun r hr => by
    cases hb : (pyLe r.1 k && pyLe k r.2.1) with
    | false => rfl
    | true =>
      simp only [Bool.and_eq_true] at hb
      exact absurd hb (h r hr))

/-- **C7.** Range labelling: each record's final label is the category of the
last range containing its locus key (inclusive, by string comparison), and
`"narration"` when no range contains it; a range whose first key is lexically
greater than its last matches zero records and raises no error (the function
is total); and the spec's four-line example labels as
`narration, speech, speech, narration`. -/
theorem label_lines_spec :
    (∀ (loci : List String) (ranges : List (String × String × String)),
      label_lines loci ranges = loci.map (labelOf ranges)) ∧
    (∀ (k : String) (ranges : List (String × String × String)),
      (∀ r ∈ ranges, ¬(pyLe r.1 k = true ∧ pyLe k r.2.1 = true)) →
      labelOf ranges k = "narration") ∧
    (∀ (loci : List String) (fi la cat : String), pyLt la fi = true →
      label_lines loci [(fi, la, cat)] = loci.map (fun _ => "narration")) ∧
    label_lines ["01_001", "01_002", "01_003", "01_004"]
        [("01_002", "01_003", "speech")]
      = ["narration", "speech", "speech", "narration"] := by
  refine ⟨label_lines_eq_map, labelOf_no_match, ?_, by decide⟩
  intro loci fi la cat hinv
  rw [label_lines_eq_map]
  apply List.map_congr_left
  intro k _
  apply labelOf_no_match
  intro r hr
  simp only [List.mem_singleton] at hr
  subst hr
  intro hle
  simp only [pyLe, Bool.not_eq_true', Bool.not_eq_true] at hle
  exact listLt_false_of_le_le hinv hle.1 hle.2

/-- Witness for C7: the single-range example, an unmatched key, and an
inverted range, instantiated through the theorem. -/
theorem label_lines_spec_witness :
    label_lines ["01_001", "01_004"] [("01_002", "01_003", "speech")]
        = ["01_001", "01_004"].map (labelOf [("01_002", "01_003", "speech")]) ∧
    labelOf [("01_002", "01_003", "speech")] "01_001" = "narration" ∧
    label_lines ["01_001", "01_002"] [("01_009", "01_001", "speech")]
        = ["narration", "narration"] ∧
    label_lines ["01_001", "01_002", "01_003", "01_004"]
        [("01_002", "01_003", "speech")]
      = ["narration", "speech", "speech", "narration"] := by
  refine ⟨label_lines_spec.1 _ _, label_lines_spec.2.1 _ _ ?_, ?_,
    label_lines_spec.2.2.2⟩
  · intro r hr
    simp only [List.mem_singleton] at hr
    subst hr
    intro h
    exact absurd h.1 (by decide)
  · have h := label_lines_spec.2.2.1 ["01_001", "01_002"] "01_009" "01_001" "speech"
      (by decide)
    rw [h]
    rfl

/-!  ## Dictionary lemmas for the tally  -/

/-- The keys of a profile, in insertion order. -/
def keysOf (m : List (String × Nat)) : List String := m.map Prod.fst

/-- The onset (alliteration) entries of a profile. -/
def onsetPart (m : List (String × Nat)) : List (String × Nat) :=
  m.filter (fun p => isOnsetKey p.1)

/-- The sum of the counts of all non-onset entries of a profile. -/
def nonOnsetSum (m : List (String × Nat)) : Nat :=
  ((m.filter (fun p => !isOnsetKey p.1)).map Prod.snd).sum

theorem dictSet_cons_ne {α : Type} {k' k : String} {v' : α} {m : List (String × α)}
    (v : α) (h : k' ≠ k) :
    dictSet ((k', v') :: m) k v = (k', v') :: dictSet m k v := by
  unfold dictSet
  have hb : (k' == k) = false := beq_eq_false_iff_ne.mpr h
  cases ha : m.any (fun p => p.1 == k) with
  | true => simp [List.any_cons, ha, hb, h]
  | false => simp [List.any_cons, ha, hb, h]

theorem map_upd_of_not_mem {α : Type} {m : List (String × α)} {k : String} (v : α)
    (h : ∀ p ∈ m, p.1 ≠ k) :
    m.map (fun p => if p.1 == k then (k, v) else p) = m := by
  induction m with
  | nil => rfl
  | cons q m ih =>
    rw [List.map_cons, if_neg (by simpa using h q (by simp)),
      ih (fun p hp => h p (by simp [hp]))]

theorem dictSet_cons_eq {α : Type} {m : List (String × α)} {k : String} (v' v : α)
    (h : ∀ p ∈ m, p.1 ≠ k) : dictSet ((k, v') :: m) k v = (k, v) :: m := by
  unfold dictSet
  rw [if_pos (by simp [List.any_cons]), List.map_cons, if_pos (by simp),
    map_upd_of_not_mem v h]

theorem dictGetD_cons_ne {α : Type} {k' k : String} {v' : α} {m : List (String × α)}
    (d : α) (h : k' ≠ k) : dictGetD ((k', v') :: m) k d = dictGetD m k d := by
  unfold dictGetD
  rw [List.find?_cons_of_neg]
  simp [h]

theorem dictGetD_cons_eq {α : Type} {k : String} {v' : α} {m : List (String × α)}
    (d : α) : dictGetD ((k, v') :: m) k d = v' := by
  unfold dictGetD
  rw [List.find?_cons_of_pos]
  simp

theorem mem_keysOf_dictIncr {m : List (String × Nat)} {k k0 : String}
    (h : k0 ∈ keysOf (dictIncr m k)) : k0 ∈ keysOf m ∨ k0 = k := by
  unfold dictIncr dictSet at h
  by_cases ha : m.any (fun p => p.1 == k)
  · rw [if_pos ha] at h
    unfold keysOf at h
    rw [List.map_map] at h
    obtain ⟨p, hp, he⟩ := List.mem_map.mp h
    by_cases hpk : (p.1 == k) = true
    · right
      simp only [Function.comp, hpk, if_true] at he
      exact he.symm ▸ rfl
    · left
      simp only [Function.comp, hpk, Bool.false_eq_true, if_false] at he
      exact List.mem_map.mpr ⟨p, hp, he⟩
  · rw [if_neg ha] at h
    unfold keysOf at h
    rw [List.map_append] at h
    rcases List.mem_append.mp h with h | h
    · exact Or.inl h
    · right
      simpa using h

theorem onsetPart_cons (k : String) (v : Nat) (m : List (String × Nat)) :
    onsetPart ((k, v) :: m)
      = if isOnsetKey k then (k, v) :: onsetPart m else onsetPart m := by
  unfold onsetPart
  rw [List.filter_cons]

theorem nonOnsetSum_cons (k : String) (v : Nat) (m : List (String × Nat)) :
    nonOnsetSum ((k, v) :: m)
      = (if isOnsetKey k then 0 else v) + nonOnsetSum m := by
  unfold nonOnsetSum
  rw [List.filter_cons]
  cases h : isOnsetKey k with
  | true => simp [h]
  | false => simp [h]


theorem dictIncr_spec (k : String) (hk : isOnsetKey k = false) :
    ∀ m : List (String × Nat), (keysOf m).Nodup →
      (keysOf (dictIncr m k)).Nodup ∧
      onsetPart (dictIncr m k) = onsetPart m ∧
      nonOnsetSum (dictIncr m k) = nonOnsetSum m + 1
  | [], _ => by
    refine ⟨?_, ?_, ?_⟩
    · show (keysOf [(k, 0 + 1)]).Nodup
      simp [keysOf]
    · show onsetPart [(k, 0 + 1)] = onsetPart []
      simp [onsetPart_cons, hk]
    · show nonOnsetSum [(k, 0 + 1)] = nonOnsetSum [] + 1
      simp [nonOnsetSum_cons, hk]
      omega
  | (k', v') :: m, hnd => by
    have hnd' : (keysOf m).Nodup := (List.nodup_cons.mp (by simpa [keysOf] using hnd)).2
    have hk'nm : k' ∉ keysOf m := (List.nodup_cons.mp (by simpa [keysOf] using hnd)).1
    by_cases he : k' = k
    · subst he
      have hknot : ∀ p ∈ m, p.1 ≠ k' := by
        intro p hp e
        exact hk'nm (List.mem_map.mpr ⟨p, hp, e⟩)
      have hstep : dictIncr ((k', v') :: m) k' = (k', v' + 1) :: m := by
        unfold dictIncr
        rw [dictGetD_cons_eq, dictSet_cons_eq _ _ hknot]
      rw [hstep]
      refine ⟨by simpa [keysOf] using hnd, ?_, ?_⟩
      · rw [onsetPart_cons, onsetPart_cons, if_neg (by simp [hk]), if_neg (by simp [hk])]
      · rw [nonOnsetSum_cons, nonOnsetSum_cons, if_neg (by simp [hk]), if_neg (by simp [hk])]
        omega
    · have hstep : dictIncr ((k', v') :: m) k = (k', v') :: dictIncr m k := by
        unfold dictIncr
        rw [dictGetD_cons_ne _ he, dictSet_cons_ne _ he]
      rw [hstep]
      obtain ⟨d1, d2, d3⟩ := dictIncr_spec k hk m hnd'
      refine ⟨?_, ?_, ?_⟩
      · rw [show keysOf ((k', v') :: dictIncr m k) = k' :: keysOf (dictIncr m k)
          from rfl, List.nodup_cons]
        refine ⟨fun hmem => ?_, d1⟩
        rcases mem_keysOf_dictIncr hmem with hmem | hmem
        · exact hk'nm hmem
        · exact he hmem
      · rw [onsetPart_cons, onsetPart_cons, d2]
      · rw [nonOnsetSum_cons, nonOnsetSum_cons, d3]
        omega

theorem tallyLoop_spec :
    ∀ (l : List Char) (m : List (String × Nat)), (keysOf m).Nodup →
      (∀ c ∈ l, isOnsetKey (resolve c) = false) →
      (keysOf (tallyLoop l m)).Nodup ∧
      onsetPart (tallyLoop l m) = onsetPart m ∧
      nonOnsetSum (tallyLoop l m) = nonOnsetSum m + l.length
  | [], m, hnd, _ => ⟨hnd, rfl, by simp [tallyLoop]⟩
  | c :: l, m, hnd, hl => by
    have hco : isOnsetKey (resolve c) = false := hl c (by simp)
    obtain ⟨d1, d2, d3⟩ := dictIncr_spec (resolve c) hco m hnd
    obtain ⟨t1, t2, t3⟩ := tallyLoop_spec l (dictIncr m (resolve c)) d1
      (fun c' hc' => hl c' (by simp [hc']))
    have hstep : tallyLoop (c :: l) m = tallyLoop l (dictIncr m (resolve c)) := rfl
    rw [hstep]
    refine ⟨t1, by rw [t2, d2], ?_⟩
    rw [t3, d3]
    simp only [List.length_cons]
    omega

/-!  ## Characters of the canonical string  -/

theorem mem_substAux {pat rep : List Char} :
    ∀ (f : Nat) (l : List Char) (c : Char), c ∈ substAux pat rep f l → c ∈ l ∨ c ∈ rep
  | 0, l, c, h => by
    cases l with
    | nil => simp [substAux] at h
    | cons x xs => exact Or.inl h
  | f + 1, l, c, h => by
    cases l with
    | nil => simp [substAux] at h
    | cons x xs =>
      rw [substAux] at h
      by_cases hp : isPre pat (x :: xs)
      · rw [if_pos hp] at h
        rcases List.mem_append.mp h with h | h
        · exact Or.inr h
        · rcases mem_substAux f _ c h with h | h
          · exact Or.inl (List.mem_cons_of_mem x (List.mem_of_mem_drop h))
          · exact Or.inr h
      · rw [if_neg hp] at h
        rcases List.mem_cons.mp h with h | h
        · exact Or.inl (by simp [h])
        · rcases mem_substAux f xs c h with h | h
          · exact Or.inl (by simp [h])
          · exact Or.inr h

theorem mem_applyTable {table : List (String × String)} :
    ∀ (l : List Char) (c : Char), c ∈ applyTable table l →
      c ∈ l ∨ ∃ p ∈ table, c ∈ p.2.data := by
  induction table with
  | nil => intro l c h; exact Or.inl h
  | cons p ps ih =>
    intro l c h
    rw [show applyTable (p :: ps) l = applyTable ps (subst1 p.1.data p.2.data l)
      from rfl] at h
    rcases ih _ c h with h | ⟨q, hq, hc⟩
    · rcases mem_substAux _ _ c h with h | h
      · exact Or.inl h
      · exact Or.inr ⟨p, by simp, h⟩
    · exact Or.inr ⟨q, by simp [hq], hc⟩

theorem mem_pyStrip {l : List Char} {c : Char} (h : c ∈ pyStrip l) : c ∈ l := by
  unfold pyStrip at h
  rw [List.mem_reverse] at h
  exact (List.dropWhile_sublist _).subset
    (List.mem_reverse.mp ((List.dropWhile_sublist _).subset h))

theorem canonical_mem {w : String} {c : Char} (h : c ∈ canonical w) :
    c = 'h' ∨ keepSound c = true ∨ ∃ p ∈ replacements, c ∈ p.2.data := by
  unfold canonical at h
  rcases mem_applyTable _ c h with h | hrep
  · rcases List.mem_append.mp h with h | h
    · by_cases hb : breathMark ∈ pyStrip (w.data.map pyLower)
      · rw [if_pos hb] at h
        simp at h
        exact Or.inl h
      · rw [if_neg hb] at h
        simp at h
    · have h2 := mem_pyStrip h
      exact Or.inr (Or.inl (List.of_mem_filter h2))
  · exact Or.inr (Or.inr hrep)

theorem canonical_ne_underscore {w : String} {c : Char} (h : c ∈ canonical w) :
    c ≠ '_' := by
  rcases canonical_mem h with rfl | hk | ⟨p, hp, hc⟩
  · decide
  · intro e
    rw [e] at hk
    exact absurd hk (by decide)
  · intro e
    subst e
    exact absurd hc ((by decide : ∀ p ∈ replacements, '_' ∉ p.2.data) p hp)

/-!  ## The reverse lookup  -/

theorem resolve_cases (c : Char) :
    resolve c = String.singleton c ∨ ∃ p ∈ reversible, resolve c = p.1 := by
  unfold resolve dictGetD
  cases hf : reverse_replacements.find? (fun p => p.1 == String.singleton c) with
  | none => exact Or.inl rfl
  | some q =>
    have hmem : q ∈ reverse_replacements := List.mem_of_find?_eq_some hf
    have hq : (q.2, q.1) ∈ reversible := by
      have hrev : reverse_replacements = [("O", "οι"), ("Ι", "αι"), ("e", "ει"),
        ("Y", "υι"), ("Α", "αυ"), ("u", "ευ"), ("U", "ου")] := by decide
      rw [hrev] at hmem
      fin_cases hmem <;> decide
    exact Or.inr ⟨(q.2, q.1), hq, rfl⟩

theorem resolve_not_onset {c : Char} (hc : c ≠ '_') :
    isOnsetKey (resolve c) = false := by
  rcases resolve_cases c with he | ⟨p, hp, he⟩
  · rw [he]
    show (([c] : List Char).head? == some '_') = false
    simp [hc]
  · rw [he]
    exact (by decide : ∀ p ∈ reversible, isOnsetKey p.1 = false) p hp

theorem onsetKey_of_marked (r : String) : isOnsetKey ("_" ++ r) = true := by
  show ((("_" : String) ++ r).data.head? == some '_') = true
  rw [String.data_append]
  rfl

/-!  ## Claims C1, C2, C9: the tally  -/

/-- **C1.** For every input word whose canonical sound string is non-empty, the
profile has exactly one onset entry (key with the `_` prefix) and its value is
1, and the values of all non-onset keys sum to the length of the canonical
sound string (surrogates count as one character). -/
theorem sounds_per_word_profile (inp : PyInput)
    (h : canonical (wordOf inp) ≠ []) :
    (onsetPart (sounds_per_word inp)).map Prod.snd = [1] ∧
    nonOnsetSum (sounds_per_word inp) = (canonical (wordOf inp)).length := by
  obtain ⟨c, rest, hcr⟩ := List.exists_cons_of_ne_nil h
  have hchars : ∀ c' ∈ (c :: rest : List Char), isOnsetKey (resolve c') = false := by
    intro c' hc'
    exact resolve_not_onset (canonical_ne_underscore (hcr ▸ hc'))
  unfold sounds_per_word
  rw [hcr]
  have ht : tally (c :: rest) = tallyLoop (c :: rest) [("_" ++ resolve c, 1)] := rfl
  rw [ht]
  obtain ⟨t1, t2, t3⟩ := tallyLoop_spec (c :: rest) [("_" ++ resolve c, 1)]
    (by simp [keysOf]) hchars
  constructor
  · rw [t2, onsetPart_cons, if_pos (onsetKey_of_marked (resolve c))]
    rfl
  · rw [t3, nonOnsetSum_cons, if_pos (onsetKey_of_marked (resolve c))]
    show 0 + nonOnsetSum [] + (c :: rest).length = (c :: rest).length
    simp [nonOnsetSum]

/-- Witness for C1 at the word `"θα"`. -/
theorem sounds_per_word_profile_witness :
    canonical (wordOf (.str "θα")) ≠ [] ∧
    (onsetPart (sounds_per_word (.str "θα"))).map Prod.snd = [1] ∧
    nonOnsetSum (sounds_per_word (.str "θα"))
      = (canonical (wordOf (.str "θα"))).length := by
  have h : canonical (wordOf (.str "θα")) ≠ [] := by decide
  exact ⟨h, sounds_per_word_profile (.str "θα") h⟩

theorem tallyLoop_replicate {c : Char} {d : String} (hres : resolve c = d)
    (hne : ("_" ++ d) ≠ d) :
    ∀ (n k : Nat), tallyLoop (List.replicate n c) [("_" ++ d, 1), (d, k)]
      = [("_" ++ d, 1), (d, k + n)]
  | 0, k => by simp [tallyLoop]
  | n + 1, k => by
    rw [List.replicate_succ]
    show tallyLoop (List.replicate n c)
      (dictIncr [("_" ++ d, 1), (d, k)] (resolve c)) = _
    rw [hres]
    have hstep : dictIncr [("_" ++ d, 1), (d, k)] d = [("_" ++ d, 1), (d, k + 1)] := by
      unfold dictIncr
      rw [dictGetD_cons_ne _ hne, dictGetD_cons_eq, dictSet_cons_ne _ hne,
        dictSet_cons_eq _ _ (by simp)]
    rw [hstep, tallyLoop_replicate hres hne n (k + 1)]
    have he : k + 1 + n = k + (n + 1) := by omega
    rw [he]

theorem tally_replicate {c : Char} {d : String} (hres : resolve c = d)
    (hne : ("_" ++ d) ≠ d) (N : Nat) (hN : 1 ≤ N) :
    tally (List.replicate N c) = [("_" ++ d, 1), (d, N)] := by
  obtain ⟨n, rfl⟩ : ∃ n, N = n + 1 := ⟨N - 1, by omega⟩
  rw [List.replicate_succ]
  show tallyLoop (List.replicate n c)
    (dictIncr [("_" ++ resolve c, 1)] (resolve c)) = _
  rw [hres]
  have hstep : dictIncr [("_" ++ d, 1)] d = [("_" ++ d, 1), (d, 1)] := by
    unfold dictIncr
    rw [dictGetD_cons_ne _ hne, dictSet_cons_ne _ hne]
    rfl
  rw [hstep, tallyLoop_replicate hres hne n 1]
  have he : 1 + n = n + 1 := by omega
  rw [he]

/-- **C2.** For every reversible digraph `d` with surrogate `s` (a single
character `c`), tallying the canonical string made of `s` repeated `N ≥ 1`
times yields exactly `{d : N, "_" + d : 1}`: the surrogate is reverse-mapped
to the digraph spelling both for the onset key and for every per-character
count. -/
theorem tally_surrogate_run (d s : String) (hmem : (d, s) ∈ reversible)
    (c : Char) (hc : s.data = [c]) (N : Nat) (hN : 1 ≤ N) :
    tally (List.replicate N c) = [("_" ++ d, 1), (d, N)] := by
  have hkey := (by decide : ∀ p ∈ reversible,
    resolve (p.2.data.headD ' ') = p.1 ∧ ("_" ++ p.1) ≠ p.1) (d, s) hmem
  have hcs : c = s.data.headD ' ' := by rw [hc]; rfl
  subst hcs
  exact tally_replicate hkey.1 hkey.2 N hN

/-- Witness for C2: three copies of the surrogate for `οι`. -/
theorem tally_surrogate_run_witness :
    tally (List.replicate 3 'O') = [("_" ++ "οι", 1), ("οι", 3)] :=
  tally_surrogate_run "οι" "O" (by decide) 'O' (by decide) 3 (by omega)

/-- **C9.** `sounds_per_word` never raises on degenerate input: non-string
input is coerced to the empty word, and every word with an empty canonical
sound string (e.g. a numeral token) yields the empty mapping — no keys at
all, not a mapping of zeros, and no error (the function is total). -/
theorem sounds_per_word_degenerate :
    sounds_per_word .nonstr = sounds_per_word (.str "") ∧
    sounds_per_word (.str "") = [] ∧
    ∀ w : String, canonical w = [] → sounds_per_word (.str w) = [] := by
  refine ⟨rfl, by decide, ?_⟩
  intro w hw
  unfold sounds_per_word
  rw [show wordOf (.str w) = w from rfl, hw]
  rfl

/-- Witness for C9 at the numeral token `"123"`. -/
theorem sounds_per_word_degenerate_witness :
    canonical "123" = [] ∧ sounds_per_word (.str "123") = [] := by
  have h : canonical ("123" : String) = [] := by decide
  exact ⟨h, sounds_per_word_degenerate.2.2 "123" h⟩

/-!  ## Claims C4, C5, C3: substitution order, breathing, idempotence  -/

/-- **C4.** The combined replacement table is applied in insertion order: all
seven reversible digraph rules (two-character keys) come before the four
irreversible single-character mergers, no single-character key occurs inside
any digraph pattern (so no digraph match is shadowed or destroyed), and the
substitution loop factors as digraphs first, then mergers. -/
theorem replacements_digraphs_first :
    replacements = reversible ++ one_time ∧
    (∀ p ∈ reversible, p.1.data.length = 2) ∧
    (∀ p ∈ one_time, p.1.data.length = 1) ∧
    (∀ q ∈ one_time, ∀ p ∈ reversible, ∀ c ∈ q.1.data, c ∉ p.1.data) ∧
    (∀ l : List Char, applyTable replacements l
      = applyTable one_time (applyTable reversible l)) := by
  have h : replacements = reversible ++ one_time := by decide
  refine ⟨h, by decide, by decide, by decide, fun l => ?_⟩
  rw [h]
  unfold applyTable
  exact List.foldl_append _ _ _ _

/-- Witness for C4, instantiated at concrete table entries and a word. -/
theorem replacements_digraphs_first_witness :
    replacements = reversible ++ one_time ∧
    ("οι" : String).data.length = 2 ∧ ("ς" : String).data.length = 1 ∧
    applyTable replacements ("θοι" : String).data
      = applyTable one_time (applyTable reversible ("θοι" : String).data) := by
  have h := replacements_digraphs_first
  exact ⟨h.1, h.2.1 ("οι", "O") (by decide), h.2.2.1 ("ς", "σ") (by decide),
    h.2.2.2.2 ("θοι" : String).data⟩

theorem subst1_cons {pat rep : List Char} {pc : Char} {pcs : List Char}
    (hpat : pat = pc :: pcs) {c : Char} (hne : pc ≠ c) (l : List Char) :
    subst1 pat rep (c :: l) = c :: subst1 pat rep l := by
  subst hpat
  have hp : isPre (pc :: pcs) (c :: l) = false := by simp [isPre, hne]
  show substAux (pc :: pcs) rep (l.length + 1) (c :: l) = _
  rw [substAux, hp]
  simp [subst1]

theorem applyTable_cons_of_head_ne (c : Char) :
    ∀ (table : List (String × String)),
      (∀ p ∈ table, p.1.data ≠ [] ∧ p.1.data.head? ≠ some c) →
      ∀ l, ∃ l', applyTable table (c :: l) = c :: l'
  | [], _, l => ⟨l, rfl⟩
  | p :: ps, htable, l => by
    obtain ⟨hne, hh⟩ := htable p (by simp)
    obtain ⟨pc, pcs, hpat⟩ := List.exists_cons_of_ne_nil hne
    have hpc : pc ≠ c := by
      intro e
      apply hh
      rw [hpat, e]
      rfl
    have hstep : applyTable (p :: ps) (c :: l)
        = applyTable ps (c :: subst1 p.1.data p.2.data l) := by
      show applyTable ps (subst1 p.1.data p.2.data (c :: l)) = _
      rw [subst1_cons hpat hpc]
    rw [hstep]
    exact applyTable_cons_of_head_ne c ps
      (fun q hq => htable q (by simp [hq])) _

/-- **C5.** If the rough-breathing mark U+0314 occurs anywhere in the
decomposed, lowercased, stripped text, the canonical sound string begins with
the literal `h` and the mark itself never survives into it; and the input
consisting of the bare mark yields exactly the profile
`{"_h" : 1, "h" : 1}`. -/
theorem breathing_mark_spec :
    (∀ w : String, breathMark ∈ pyStrip (w.data.map pyLower) →
      (∃ rest, canonical w = 'h' :: rest) ∧ breathMark ∉ canonical w) ∧
    sounds_per_word (.str (String.singleton breathMark))
      = [("_h", 1), ("h", 1)] := by
  constructor
  · intro w hmem
    constructor
    · show ∃ rest, applyTable replacements
        ((if breathMark ∈ pyStrip (w.data.map pyLower) then ['h'] else []) ++
          pyStrip ((pyStrip (w.data.map pyLower)).filter keepSound)) = 'h' :: rest
      rw [if_pos hmem]
      exact applyTable_cons_of_head_ne 'h' replacements (by decide) _
    · intro hc
      rcases canonical_mem hc with he | hk | ⟨p, hp, hcp⟩
      · exact absurd he (by decide)
      · exact absurd hk (by decide)
      · exact absurd hcp ((by decide : ∀ p ∈ replacements, breathMark ∉ p.2.data) p hp)
  · decide

/-- Witness for C5 at the bare combining mark. -/
theorem breathing_mark_spec_witness :
    breathMark ∈ pyStrip ((String.singleton breathMark).data.map pyLower) ∧
    (∃ rest, canonical (String.singleton breathMark) = 'h' :: rest) ∧
    breathMark ∉ canonical (String.singleton breathMark) := by
  have hm : breathMark ∈ pyStrip ((String.singleton breathMark).data.map pyLower) := by
    decide
  exact ⟨hm, breathing_mark_spec.1 (String.singleton breathMark) hm⟩

/-- Counterexample to **C3** as stated: `"θ"` is composed purely of lowercase
target-alphabet letters, digraph (reversible) substitution alone leaves it
unchanged, yet normalization maps it to `"τ"` — the irreversible
single-letter merger `θ → τ` also applies, so normalization is *not* the
identity up to digraph substitution on such strings. -/
theorem canonical_not_digraphs_only :
    (∀ c ∈ ("θ" : String).data, 'α' ≤ c ∧ c ≤ 'ω') ∧
    applyTable reversible ("θ" : String).data = ("θ" : String).data ∧
    canonical "θ" = ['τ'] ∧
    canonical "θ" ≠ applyTable reversible ("θ" : String).data :=
  ⟨by decide, by decide, by decide, by decide⟩

/-- **C3** (amended): for every already-normalized input (pure lowercase
target-alphabet letters, no diacritics), normalization returns it unchanged
except for the application of the combined replacement table — the reversible
digraph substitutions *plus* the four irreversible single-letter mergers —
and re-tallying the same canonical string yields identical profiles. -/
theorem canonical_lowercase_amended (s : String)
    (h : ∀ c ∈ s.data, 'α' ≤ c ∧ c ≤ 'ω') :
    canonical s = applyTable replacements s.data ∧
    tally (canonical s) = tally (canonical s) := by
  refine ⟨?_, rfl⟩
  have hid : ∀ c ∈ s.data, pyLower c = c := by
    intro c hc
    obtain ⟨h1, h2⟩ := h c hc
    have hn1 := charLe_iff.mp h1
    rw [show ('α' : Char).toNat = 945 from rfl] at hn1
    unfold pyLower
    rw [if_neg, if_neg]
    · rintro (⟨_, hb⟩ | ⟨_, hb⟩)
      · have hz := charLe_iff.mp hb
        rw [show ('Ρ' : Char).toNat = 929 from rfl] at hz
        omega
      · have hz := charLe_iff.mp hb
        rw [show ('Ω' : Char).toNat = 937 from rfl] at hz
        omega
    · intro hand
      have hz := charLe_iff.mp hand.2
      rw [show ('Z' : Char).toNat = 90 from rfl] at hz
      omega
  have hlow : s.data.map pyLower = s.data :=
    (List.map_congr_left hid).trans (List.map_id s.data)
  have hnospace : ∀ c ∈ s.data, isPySpace c = false := by
    intro c hc
    obtain ⟨h1, h2⟩ := h c hc
    have hn1 := charLe_iff.mp h1
    have hn2 := charLe_iff.mp h2
    rw [show ('α' : Char).toNat = 945 from rfl] at hn1
    rw [show ('ω' : Char).toNat = 969 from rfl] at hn2
    simp only [isPySpace, Bool.or_eq_false_iff, decide_eq_false_iff_not,
      beq_eq_false_iff_ne, ne_eq, not_and, not_le]
    omega
  have hmark : breathMark ∉ s.data := by
    intro hc
    obtain ⟨h1, _⟩ := h _ hc
    have hn := charLe_iff.mp h1
    rw [show ('α' : Char).toNat = 945 from rfl,
      show breathMark.toNat = 788 from rfl] at hn
    omega
  have hfilter : s.data.filter keepSound = s.data :=
    List.filter_eq_self.mpr (fun c hc => by
      obtain ⟨h1, h2⟩ := h c hc
      simp [keepSound, h1, h2])
  show applyTable replacements
      ((if breathMark ∈ pyStrip (s.data.map pyLower) then ['h'] else []) ++
        pyStrip ((pyStrip (s.data.map pyLower)).filter keepSound))
    = applyTable replacements s.data
  rw [hlow, pyStrip_eq_self hnospace, if_neg hmark, hfilter,
    pyStrip_eq_self hnospace, List.nil_append]

/-- Witness for the amended C3 at the word `"θα"`. -/
theorem canonical_lowercase_amended_witness :
    (∀ c ∈ ("θα" : String).data, 'α' ≤ c ∧ c ≤ 'ω') ∧
    canonical "θα" = applyTable replacements ("θα" : String).data := by
  have h : ∀ c ∈ ("θα" : String).data, 'α' ≤ c ∧ c ≤ 'ω' := by decide
  exact ⟨h, (canonical_lowercase_amended "θα" h).1⟩

end QS
